import Mathlib

/-!
Verification of `chess.py` (`ProcChessComPgnFile`), a parser and
derived-statistics engine for Chess.com PGN files annotated with per-move
clock readouts.  The Python source is shallowly embedded: strings become
`List Char`, `datetime.time` becomes `PyTime` (integer fields, microsecond
precision), `datetime.datetime` values become absolute microsecond counts
(`day * 86400000000 + microseconds-of-day`), and code that raises
exceptions returns `Option` (with `none` standing for the raised error).
-/

namespace ChessPy

/-- Mirrors `datetime.time`: hour, minute, second and microsecond fields.
`datetime.datetime.strptime(...).time()` in `_build_time_by_clock` produces
such a value. -/
structure PyTime where
  hour : Nat
  minute : Nat
  second : Nat
  micro : Nat
deriving DecidableEq, Repr

/-- Microseconds elapsed since midnight for a `PyTime`. -/
def timeMicros (t : PyTime) : Nat :=
  ((t.hour * 60 + t.minute) * 60 + t.second) * 1000000 + t.micro

/-- Mirrors `datetime.datetime.combine(day, t)` as an absolute microsecond
count: the calendar day contributes `86400000000` microseconds each. -/
def combine (day : Int) (t : PyTime) : Int :=
  day * 86400000000 + (timeMicros t : Int)

/-- Numeric value of a decimal digit character. -/
def digitVal (c : Char) : Nat := c.toNat - 48

/-- Value of a list of decimal digit characters, most significant first. -/
def digitsVal (l : List Char) : Nat :=
  l.foldl (fun a c => a * 10 + digitVal c) 0

/-- Mirrors one numeric field of CPython `_strptime`: `%H` uses regex
`(2[0-3]|[0-1]\d|\d)`, `%M`/`%S` use `([0-5]\d|\d)` — i.e. two digits when
their combined value is within `maxVal`, otherwise a single digit.
Returns the field value and the unconsumed characters.  (Regex
backtracking agrees with this committed choice: whenever the two-digit
alternative is range-valid, the one-digit alternative leaves a digit as
the next character, which can never match the following literal `:`, `.`
or end of input.) -/
def parseField (maxVal : Nat) : List Char → Option (Nat × List Char)
  | [] => none
  | [c] => if c.isDigit then some (digitVal c, []) else none
  | c1 :: c2 :: rest =>
    if c1.isDigit then
      if c2.isDigit ∧ 10 * digitVal c1 + digitVal c2 ≤ maxVal then
        some (10 * digitVal c1 + digitVal c2, rest)
      else
        some (digitVal c1, c2 :: rest)
    else none

/-- Mirrors `%f` of `_strptime` (`(\d{1,6})` followed by end of input, since
`%f` is the last directive of the format): one to six digits, right-padded
with zeros to microseconds. -/
def parseFrac (l : List Char) : Option Nat :=
  if l ≠ [] ∧ l.length ≤ 6 ∧ l.all Char.isDigit then
    some (digitsVal l * 10 ^ (6 - l.length))
  else none

/-- Shared `%H:%M:%S` core of both clock formats.  The `%S` regex of
CPython also matches `60`/`61`, but `datetime` construction then raises
`ValueError`, which `_build_time_by_clock` swallows exactly like a match
failure; the net accepted range is `0..59`, as encoded here. -/
def parseClockCore (l : List Char) : Option (Nat × Nat × Nat × List Char) :=
  match parseField 23 l with
  | none => none
  | some (h, r1) =>
    match r1 with
    | ':' :: r2 =>
      match parseField 59 r2 with
      | none => none
      | some (m, r3) =>
        match r3 with
        | ':' :: r4 =>
          match parseField 59 r4 with
          | none => none
          | some (s, r5) => some (h, m, s, r5)
        | _ => none
    | _ => none

/-- Mirrors `datetime.datetime.strptime(clock_desc, '%H:%M:%S.%f').time()`
(the first entry of `CLOCK_FORMATS`): `none` models the raised
`ValueError`. -/
def parseClockFrac (l : List Char) : Option PyTime :=
  match parseClockCore l with
  | some (h, m, s, '.' :: rest) =>
    (parseFrac rest).map (fun mic => ⟨h, m, s, mic⟩)
  | _ => none

/-- Mirrors `datetime.datetime.strptime(clock_desc, '%H:%M:%S').time()`
(the second entry of `CLOCK_FORMATS`). -/
def parseClockNoFrac (l : List Char) : Option PyTime :=
  match parseClockCore l with
  | some (h, m, s, []) => some ⟨h, m, s, 0⟩
  | _ => none

/-- Mirrors `_build_time_by_clock`: try the formats of `CLOCK_FORMATS` in
order, return the first successful parse; `none` models the final
`raise ValueError(f'unrecognized clock format "..."')`. -/
def build_time_by_clock (l : List Char) : Option PyTime :=
  match parseClockFrac l with
  | some t => some t
  | none => parseClockNoFrac l

/-- Whitespace stripped by Python `int()` before parsing a literal. -/
def pyIsSpace (c : Char) : Bool :=
  c.isWhitespace || c = '\x0b' || c = '\x0c'

/-- Strip leading and trailing whitespace, as `int()` does. -/
def pyStrip (l : List Char) : List Char :=
  ((l.dropWhile pyIsSpace).reverse.dropWhile pyIsSpace).reverse

/-- Digit run of a Python integer literal after the first digit: single
underscores are allowed between digits (`pu` records whether the previous
character was an underscore). -/
def pyDigitsAux (pu : Bool) (acc : Nat) : List Char → Option Nat
  | [] => if pu then none else some acc
  | c :: cs =>
    if c.isDigit then pyDigitsAux false (acc * 10 + digitVal c) cs
    else if c = '_' then
      (if pu then none else pyDigitsAux true acc cs)
    else none

/-- Nonempty digit run of a Python integer literal (underscores allowed
between digits, not leading, trailing or doubled). -/
def pyDigits : List Char → Option Nat
  | [] => none
  | c :: cs => if c.isDigit then pyDigitsAux false (digitVal c) cs else none

/-- Mirrors Python `int(s)` on a string: strip whitespace, optional sign,
then a digit run; `none` models the raised `ValueError`. -/
def pyInt (s : List Char) : Option Int :=
  match pyStrip s with
  | '+' :: rest => (pyDigits rest).map (fun n => (n : Int))
  | '-' :: rest => (pyDigits rest).map (fun n => -(n : Int))
  | t => (pyDigits t).map (fun n => (n : Int))

/-- Python `timectrl_desc.split('+')`: split at every `'+'`, keeping empty
pieces. -/
def splitOnPlus : List Char → List (List Char)
  | [] => [[]]
  | c :: cs =>
    let r := splitOnPlus cs
    if c = '+' then [] :: r
    else
      match r with
      | [] => [[c]]
      | x :: xs => (c :: x) :: xs

/-- Mirrors lines 71–76 of `_extract_time_ctrl`: strip quote characters,
then either split once on `'+'` into `(secs_start, secs_incr)` or parse
the whole value with increment `0`.  `none` models the `ValueError`
raised by `int()` or by unpacking a split of length other than two. -/
def extract_time_ctrl_parse (raw : List Char) : Option (Int × Int) :=
  let desc := raw.filter (fun c => c ≠ '"')
  if '+' ∈ desc then
    match splitOnPlus desc with
    | [a, b] =>
      match pyInt a, pyInt b with
      | some x, some y => some (x, y)
      | _, _ => none
    | _ => none
  else
    (pyInt desc).map (fun v => (v, 0))

/-- `TOKEN_START_CLOCK = '{[%clk '`. -/
def TOKEN_START_CLOCK : List Char := "\x7b[%clk ".data

/-- `TOKEN_END_CLOCK = ']}'`. -/
def TOKEN_END_CLOCK : List Char := "]\x7d".data

/-- Index of the first occurrence of `pat` in `s`, mirroring Python
`s.find(pat)` (`none` for the `-1` result). -/
def findSub (s pat : List Char) : Option Nat :=
  match s with
  | [] => if pat = [] then some 0 else none
  | _ :: cs =>
    if pat.isPrefixOf s then some 0
    else (findSub cs pat).map (fun n => n + 1)

/-- Mirrors the scanning loop of `_extract_hist_clock`: repeatedly
`find` the start token, slice up to the next end token, and continue from
the end token's position.  When the end token is absent, Python's `find`
returns `-1` and the slice `self.pgn[start:-1]` takes everything after
the start token except the final character of the text; the loop then
terminates (the next `find` starts at `-1`, i.e. the last character,
where no further start token fits).  The recursion is over the character
list instead of an index.  `fuel` only bounds the recursion depth so the
definition is structural (and hence kernel-reducible); every step
consumes at least one character, so any `fuel ≥ s.length` gives the same
result (`scanClockAux_fuel`). -/
def scanClockAux (fuel : Nat) (s : List Char) : List (List Char) :=
  match fuel with
  | 0 => []
  | fuel + 1 =>
    match s with
    | [] => []
    | c :: cs =>
      if TOKEN_START_CLOCK.isPrefixOf (c :: cs) then
        let rest := cs.drop 6
        match findSub rest TOKEN_END_CLOCK with
        | some j => rest.take j :: scanClockAux fuel (rest.drop j)
        | none => [rest.dropLast]
      else scanClockAux fuel cs

/-- The clock-token scan of `_extract_hist_clock`, with enough fuel for
the whole text. -/
def scanClock (s : List Char) : List (List Char) := scanClockAux s.length s

/-- Parse every scanned clock slice with `_build_time_by_clock`; the first
failure aborts the whole extraction (the Python `ValueError`
propagates out of `__init__`). -/
def parseAll : List (List Char) → Option (List PyTime)
  | [] => some []
  | t :: ts =>
    match build_time_by_clock t, parseAll ts with
    | some x, some xs => some (x :: xs)
    | _, _ => none

/-- Mirrors the `move_id % 2` assignment of `_extract_hist_clock`:
tokens at odd 1-based encounter positions go to white (first component),
the rest to black (second component). -/
def altSplit : List α → List α × List α
  | [] => ([], [])
  | x :: xs =>
    let p := altSplit xs
    (x :: p.2, p.1)

/-- Mirrors `_extract_hist_clock`: scan the clock slices, parse each with
`_build_time_by_clock`, and assign them alternately starting with white.
Returns `(hist_clock_white, hist_clock_black)`; `none` models a
propagated `ValueError`. -/
def extract_hist_clock (pgn : List Char) : Option (List PyTime × List PyTime) :=
  (parseAll (scanClock pgn)).map altSplit

/-- Mirrors `datetime.time(hour=h, minute=m, second=s)`: construction
raises `ValueError` (here `none`) when a field is out of range. -/
def mkPyTime (h m s : Nat) : Option PyTime :=
  if h ≤ 23 ∧ m ≤ 59 ∧ s ≤ 59 then some ⟨h, m, s, 0⟩ else none

/-- Mirrors lines 84–89 of `_extract_time_per_move`: split `secs_start`
into hour/minute/second with `divmod`, build the `datetime.time`, and
combine it with the current date into the starting `datetime`
(as absolute microseconds). -/
def initStartDT (day : Int) (secs_start : Nat) : Option Int :=
  let h := secs_start / 3600
  let r := secs_start % 3600
  (mkPyTime h (r / 60) (r % 60)).map (fun t => combine day t)

/-- Mirrors `math.ceil(move_time)` where `move_time` is
`(start - end).total_seconds()`: the ceiling of `x / 10^6` for a
microsecond count `x`. -/
def ceilSecOfMicros (x : Int) : Int := -((-x).ediv 1000000)

/-- Mirrors the inner loop of `_extract_time_per_move` for one side,
producing the raw `move_time` values (in microseconds): per reading,
`start += td_incr`, `move_time = start - end`, `start = end`. -/
def histMTimeDT (incr : Int) : Int → List Int → List Int
  | _, [] => []
  | start, r :: rs => (start + incr - r) :: histMTimeDT incr r rs

/-- Mirrors `time2moves[math.ceil(move_time)].append(move_id)` on a
`collections.defaultdict(list)` represented as an association list in
key-insertion order: append to an existing key's list or add a new key at
the end. -/
def addToBucket : List (Int × List Nat) → Int → Nat → List (Int × List Nat)
  | [], k, i => [(k, [i])]
  | (k', l) :: rest, k, i =>
    if k' = k then (k', l ++ [i]) :: rest
    else (k', l) :: addToBucket rest k i

/-- Fold the per-move bucket insertions of `_extract_time_per_move` over
the rounded keys, with `move_id` counting from `i`. -/
def bucketsFromKeys : List (Int × List Nat) → Nat → List Int → List (Int × List Nat)
  | acc, _, [] => acc
  | acc, i, k :: ks => bucketsFromKeys (addToBucket acc k i) (i + 1) ks

/-- One side of `_extract_time_per_move`: from the starting `datetime`
(absolute microseconds) and the per-second increment, derive the raw
`hist_mtime` list and the `time2moves` buckets for the side's clock
history (readings combined with the same current date). -/
def timePerMoveSide (day : Int) (startDT secs_incr : Int) (hclock : List PyTime) :
    List (Int × List Nat) × List Int :=
  let mt := histMTimeDT (secs_incr * 1000000) startDT (hclock.map (combine day))
  (bucketsFromKeys [] 1 (mt.map ceilSecOfMicros), mt)

/-- Mirrors `_extract_time_per_move`: build the starting `datetime` from
`secs_start` and `datetime.date.today()` (parameter `day`), then derive
buckets and raw times for each side.  Returns
`((time2moves_white, hist_mtime_white), (time2moves_black, hist_mtime_black))`;
`none` models the `ValueError` from `datetime.time` construction. -/
def extract_time_per_move (day : Int) (secs_start : Nat) (secs_incr : Int)
    (hclock_white hclock_black : List PyTime) :
    Option ((List (Int × List Nat) × List Int) × (List (Int × List Nat) × List Int)) :=
  (initStartDT day secs_start).map (fun ds =>
    (timePerMoveSide day ds secs_incr hclock_white,
     timePerMoveSide day ds secs_incr hclock_black))

/-- Mirrors `_fmt_time_per_move` on exact rational seconds: `divmod` by
3600 and 60 (floor semantics, as for Python floats), then concatenate the
nonzero components, the seconds component rounded up with `math.ceil`. -/
def fmt_time_per_move (seconds : ℚ) : String :=
  let h : Int := Int.floor (seconds / 3600)
  let r : ℚ := seconds - 3600 * (h : ℚ)
  let m : Int := Int.floor (r / 60)
  let s : ℚ := r - 60 * (m : ℚ)
  let d1 : String := if h = 0 then "" else toString h ++ "hr"
  let d2 : String := if m = 0 then d1 else d1 ++ toString m ++ "min"
  if s = 0 then d2 else d2 ++ toString (Int.ceil s) ++ "sec"

/-- Mirrors `print_timectrl_desc`: the printed line. -/
def print_timectrl_desc (secs_start secs_incr : Int) : String :=
  "Time Control: " ++ fmt_time_per_move (secs_start : ℚ) ++ " + "
    ++ fmt_time_per_move (secs_incr : ℚ)

/-- Mirrors `sorted(d_view, key=lambda kv: kv[0], reverse=True)` on the
bucket view: stable descending sort by key. -/
def sortBucketsDesc (B : List (Int × List Nat)) : List (Int × List Nat) :=
  B.mergeSort (fun p q => decide (q.1 ≤ p.1))

/-- Mirrors the `spent_time` accumulation of `_print_moves_by_time`:
iterate the buckets sorted by key descending and add
`num_moves_time * time_` for each. -/
def spentTimeOf (B : List (Int × List Nat)) : Int :=
  (sortBucketsDesc B).foldl (fun acc p => acc + (p.2.length : Int) * p.1) 0

theorem digitVal_le_nine {c : Char} (h : c.isDigit) : digitVal c ≤ 9 := by
  simp [Char.isDigit] at h
  have h3 : c.toNat ≤ 57 := UInt32.toNat_le_of_le (by norm_num) h.2
  simp [digitVal]
  omega

theorem parseField_le {mx : Nat} (hmx : 9 ≤ mx) :
    ∀ {l : List Char} {v : Nat} {r : List Char},
      parseField mx l = some (v, r) → v ≤ mx := by
  intro l v r h
  match l with
  | [] => simp [parseField] at h
  | [c] =>
    simp [parseField] at h
    rcases h with ⟨hc, hv, _⟩
    exact hv ▸ le_trans (digitVal_le_nine hc) hmx
  | c1 :: c2 :: rest =>
    simp only [parseField] at h
    split at h
    · split at h
      · rename_i hg
        simp at h
        omega
      · simp at h
        rename_i hd _
        exact h.1 ▸ le_trans (digitVal_le_nine hd) hmx
    · simp at h

theorem parseClockCore_bound {l : List Char} {h m s : Nat} {r : List Char}
    (hp : parseClockCore l = some (h, m, s, r)) :
    h ≤ 23 ∧ m ≤ 59 ∧ s ≤ 59 := by
  unfold parseClockCore at hp
  split at hp
  · simp at hp
  · rename_i hh
    split at hp
    · split at hp
      · simp at hp
      · rename_i hm
        split at hp
        · split at hp
          · simp at hp
          · rename_i hs
            simp at hp
            obtain ⟨h1, h2, h3, _⟩ := hp
            exact ⟨h1 ▸ parseField_le (by norm_num) hh,
                   h2 ▸ parseField_le (by norm_num) hm,
                   h3 ▸ parseField_le (by norm_num) hs⟩
        · simp at hp
    · simp at hp

theorem digitsVal_aux_lt (l : List Char) (hl : ∀ c ∈ l, c.isDigit) :
    ∀ a : Nat, l.foldl (fun a c => a * 10 + digitVal c) a < (a + 1) * 10 ^ l.length := by
  induction l with
  | nil => intro a; simp
  | cons c cs ih =>
    intro a
    simp only [List.foldl_cons, List.length_cons]
    calc cs.foldl (fun a c => a * 10 + digitVal c) (a * 10 + digitVal c)
        < (a * 10 + digitVal c + 1) * 10 ^ cs.length :=
          ih (fun x hx => hl x (List.mem_cons_of_mem c hx)) _
      _ ≤ (a + 1) * 10 ^ (cs.length + 1) := by
          have hd : digitVal c ≤ 9 := digitVal_le_nine (hl c (List.mem_cons_self c cs))
          have : a * 10 + digitVal c + 1 ≤ (a + 1) * 10 := by omega
          calc (a * 10 + digitVal c + 1) * 10 ^ cs.length
              ≤ ((a + 1) * 10) * 10 ^ cs.length :=
                Nat.mul_le_mul_right _ this
            _ = (a + 1) * 10 ^ (cs.length + 1) := by ring

theorem digitsVal_lt (l : List Char) (hl : ∀ c ∈ l, c.isDigit) :
    digitsVal l < 10 ^ l.length := by
  have := digitsVal_aux_lt l hl 0
  simpa [digitsVal] using this

theorem parseFrac_lt {l : List Char} {mic : Nat} (h : parseFrac l = some mic) :
    mic < 1000000 := by
  unfold parseFrac at h
  split at h
  · rename_i hc
    simp at h
    have hdig : ∀ c ∈ l, c.isDigit := by
      have := hc.2.2
      simp [List.all_eq_true] at this
      exact this
    have h1 : digitsVal l < 10 ^ l.length := digitsVal_lt l hdig
    have h2 : l.length ≤ 6 := hc.2.1
    have : digitsVal l * 10 ^ (6 - l.length) < 10 ^ l.length * 10 ^ (6 - l.length) :=
      (Nat.mul_lt_mul_right (by positivity)).mpr h1
    have he : 10 ^ l.length * 10 ^ (6 - l.length) = 1000000 := by
      rw [← pow_add]
      have : l.length + (6 - l.length) = 6 := by omega
      rw [this]
      norm_num
    omega
  · simp at h

theorem build_time_by_clock_valid {l : List Char} {t : PyTime}
    (h : build_time_by_clock l = some t) :
    t.hour ≤ 23 ∧ t.minute ≤ 59 ∧ t.second ≤ 59 ∧ t.micro < 1000000 := by
  unfold build_time_by_clock at h
  split at h
  · rename_i t' hf
    cases h
    unfold parseClockFrac at hf
    split at hf
    · rename_i hh mm ss rest hc
      simp at hf
      obtain ⟨mic, hmic, ht⟩ := hf
      obtain ⟨b1, b2, b3⟩ := parseClockCore_bound hc
      rw [← ht]
      exact ⟨b1, b2, b3, parseFrac_lt hmic⟩
    · simp at hf
  · rename_i hf
    unfold parseClockNoFrac at h
    split at h
    · rename_i hh mm ss hc
      cases h
      obtain ⟨b1, b2, b3⟩ := parseClockCore_bound hc
      exact ⟨b1, b2, b3, by norm_num⟩
    · simp at h

theorem scanClockAux_fuel :
    ∀ (fuel : Nat) (s : List Char) (fuel' : Nat),
      s.length ≤ fuel → s.length ≤ fuel' →
      scanClockAux fuel s = scanClockAux fuel' s := by
  intro fuel
  induction fuel with
  | zero =>
    intro s fuel' h1 _
    have hs : s = [] := List.eq_nil_of_length_eq_zero (Nat.le_zero.mp h1)
    subst hs
    cases fuel' <;> simp [scanClockAux]
  | succ f ih =>
    intro s fuel' h1 h2
    cases s with
    | nil => cases fuel' <;> simp [scanClockAux]
    | cons c cs =>
      cases fuel' with
      | zero => simp at h2
      | succ f' =>
        simp only [scanClockAux]
        split
        · cases hf : findSub (cs.drop 6) TOKEN_END_CLOCK with
          | some j =>
            simp only [hf]
            have hlen : ((cs.drop 6).drop j).length ≤ f := by
              simp only [List.length_drop]
              simp only [List.length_cons] at h1
              omega
            have hlen' : ((cs.drop 6).drop j).length ≤ f' := by
              simp only [List.length_drop]
              simp only [List.length_cons] at h2
              omega
            rw [ih _ f' hlen hlen']
          | none => simp only [hf]
        · have hlen : cs.length ≤ f := by
            simp only [List.length_cons] at h1
            omega
          have hlen' : cs.length ≤ f' := by
            simp only [List.length_cons] at h2
            omega
          exact ih cs f' hlen hlen'

theorem altSplit_length (l : List α) :
    (altSplit l).1.length = (l.length + 1) / 2 ∧ (altSplit l).2.length = l.length / 2 := by
  induction l with
  | nil => simp [altSplit]
  | cons x xs ih =>
    simp only [altSplit, List.length_cons]
    constructor
    · simp only [List.length_cons, ih.2]
      omega
    · simp only [ih.1]

theorem altSplit_get (l : List α) :
    ∀ i : Nat, (altSplit l).1[i]? = l[2 * i]? ∧ (altSplit l).2[i]? = l[2 * i + 1]? := by
  induction l with
  | nil => intro i; simp [altSplit]
  | cons x xs ih =>
    intro i
    constructor
    · cases i with
      | zero => simp [altSplit]
      | succ n =>
        have h2 : 2 * (n + 1) = (2 * n + 1) + 1 := by ring
        rw [h2]
        simpa [altSplit] using (ih n).2
    · have h2 : 2 * i + 1 = (2 * i) + 1 := rfl
      rw [h2]
      simpa [altSplit] using (ih i).1

theorem parseAll_length : ∀ {ts : List (List Char)} {xs : List PyTime},
    parseAll ts = some xs → xs.length = ts.length := by
  intro ts
  induction ts with
  | nil => intro xs h; simp [parseAll] at h; simp [← h]
  | cons t ts ih =>
    intro xs h
    unfold parseAll at h
    split at h
    · rename_i x l heq hp
      cases h
      simp [ih hp]
    · simp at h

theorem histMTimeDT_eq_zipWith (incr : Int) :
    ∀ (start : Int) (l : List Int),
      histMTimeDT incr start l
        = List.zipWith (fun p c => p + incr - c) (start :: l) l := by
  intro start l
  induction l generalizing start with
  | nil => simp [histMTimeDT]
  | cons r rs ih => simp [histMTimeDT, List.zipWith, ih r]

theorem histMTimeDT_length (incr : Int) :
    ∀ (start : Int) (l : List Int), (histMTimeDT incr start l).length = l.length := by
  intro start l
  induction l generalizing start with
  | nil => simp [histMTimeDT]
  | cons r rs ih => simp [histMTimeDT, ih r]

theorem histMTimeDT_shift (incr c : Int) :
    ∀ (start : Int) (l : List Int),
      histMTimeDT incr (c + start) (l.map (fun x => c + x)) = histMTimeDT incr start l := by
  intro start l
  induction l generalizing start with
  | nil => simp [histMTimeDT]
  | cons r rs ih =>
    simp only [List.map_cons, histMTimeDT, List.cons.injEq]
    exact ⟨by ring, ih r⟩

theorem addToBucket_weight (f : Int × List Nat → Int)
    (hf : f = fun p => p.1 * (p.2.length : Int)) :
    ∀ (b : List (Int × List Nat)) (k : Int) (i : Nat),
      ((addToBucket b k i).map f).sum = (b.map f).sum + k := by
  intro b k i
  induction b with
  | nil => simp [addToBucket, hf]
  | cons p rest ih =>
    obtain ⟨k', l⟩ := p
    by_cases h : k' = k
    · simp [addToBucket, h, hf]
      ring
    · simp [addToBucket, h, hf] at ih ⊢
      omega

theorem bucketsFromKeys_weight (f : Int × List Nat → Int)
    (hf : f = fun p => p.1 * (p.2.length : Int)) :
    ∀ (ks : List Int) (acc : List (Int × List Nat)) (i : Nat),
      ((bucketsFromKeys acc i ks).map f).sum = (acc.map f).sum + ks.sum := by
  intro ks
  induction ks with
  | nil => intro acc i; simp [bucketsFromKeys]
  | cons k ks ih =>
    intro acc i
    simp only [bucketsFromKeys, List.sum_cons]
    rw [ih, addToBucket_weight f hf]
    ring

theorem foldl_add_len_mul (l : List (Int × List Nat)) :
    ∀ a : Int, l.foldl (fun acc p => acc + (p.2.length : Int) * p.1) a
      = a + (l.map (fun p => p.1 * (p.2.length : Int))).sum := by
  induction l with
  | nil => intro a; simp
  | cons p ps ih =>
    intro a
    simp only [List.foldl_cons, List.map_cons, List.sum_cons, ih]
    ring

theorem spentTimeOf_eq_sum (B : List (Int × List Nat)) :
    spentTimeOf B = (B.map (fun p => p.1 * (p.2.length : Int))).sum := by
  unfold spentTimeOf sortBucketsDesc
  rw [foldl_add_len_mul]
  have hp : (B.mergeSort (fun p q => decide (q.1 ≤ p.1))).Perm B :=
    List.mergeSort_perm B _
  rw [(hp.map (fun p => p.1 * (p.2.length : Int))).sum_eq]
  ring

theorem addToBucket_join (b : List (Int × List Nat)) (k : Int) (i : Nat) :
    ((addToBucket b k i).map Prod.snd).flatten.Perm ((b.map Prod.snd).flatten ++ [i]) := by
  induction b with
  | nil => simp [addToBucket]
  | cons p rest ih =>
    obtain ⟨k₀, l⟩ := p
    simp only [addToBucket]
    split
    · simp only [List.map_cons, List.flatten_cons]
      rw [List.append_assoc, List.append_assoc]
      exact (@List.perm_append_comm _ [i] ((rest.map Prod.snd).flatten)).append_left l
    · simp only [List.map_cons, List.flatten_cons]
      rw [List.append_assoc]
      exact ih.append_left l

theorem bucketsFromKeys_join :
    ∀ (ks : List Int) (acc : List (Int × List Nat)) (i : Nat),
      ((bucketsFromKeys acc i ks).map Prod.snd).flatten.Perm
        ((acc.map Prod.snd).flatten ++ List.range' i ks.length) := by
  intro ks
  induction ks with
  | nil => intro acc i; simp [bucketsFromKeys]
  | cons k ks ih =>
    intro acc i
    simp only [bucketsFromKeys, List.length_cons]
    have h1 := ih (addToBucket acc k i) (i + 1)
    have h2 := (addToBucket_join acc k i).append_right (List.range' (i + 1) ks.length)
    have h3 := h1.trans h2
    have h4 : ((acc.map Prod.snd).flatten ++ [i]) ++ List.range' (i + 1) ks.length
        = (acc.map Prod.snd).flatten ++ List.range' i (ks.length + 1) := by
      rw [List.range'_succ i ks.length 1]
      simp
    rw [h4] at h3
    exact h3

theorem addToBucket_mem {b : List (Int × List Nat)} {k' : Int} {i : Nat}
    {k : Int} {l : List Nat} (h : (k, l) ∈ addToBucket b k' i) :
    (k, l) ∈ b ∨ (∃ l₀, l = l₀ ++ [i] ∧ k = k' ∧ (k, l₀) ∈ b) ∨ (k = k' ∧ l = [i]) := by
  induction b with
  | nil =>
    simp only [addToBucket, List.mem_singleton, Prod.mk.injEq] at h
    exact Or.inr (Or.inr h)
  | cons p rest ih =>
    obtain ⟨k₀, l₀⟩ := p
    simp only [addToBucket] at h
    split at h
    · rename_i hk
      simp only [List.mem_cons, Prod.mk.injEq] at h
      rcases h with ⟨hk1, hl1⟩ | hmem
      · refine Or.inr (Or.inl ⟨l₀, hl1, hk1.trans hk, ?_⟩)
        rw [hk1]
        exact List.mem_cons_self _ _
      · exact Or.inl (List.mem_cons_of_mem _ hmem)
    · rename_i hk
      simp only [List.mem_cons] at h
      rcases h with heq | hmem
      · refine Or.inl ?_
        rw [heq]
        exact List.mem_cons_self _ _
      · rcases ih hmem with h1 | h1 | h1
        · exact Or.inl (List.mem_cons_of_mem _ h1)
        · obtain ⟨l₁, ha, hb, hc⟩ := h1
          exact Or.inr (Or.inl ⟨l₁, ha, hb, List.mem_cons_of_mem _ hc⟩)
        · exact Or.inr (Or.inr h1)

theorem addToBucket_inv {b : List (Int × List Nat)} {i : Nat} {k' : Int}
    (hb : ∀ p ∈ b, List.Pairwise (fun a c => a < c) p.2 ∧ ∀ id ∈ p.2, id < i) :
    ∀ p ∈ addToBucket b k' i,
      List.Pairwise (fun a c => a < c) p.2 ∧ ∀ id ∈ p.2, id < i + 1 := by
  intro p hp
  obtain ⟨k, l⟩ := p
  rcases addToBucket_mem hp with h | h | h
  · obtain ⟨h1, h2⟩ := hb _ h
    exact ⟨h1, fun id hid => Nat.lt_succ_of_lt (h2 id hid)⟩
  · obtain ⟨l₀, hl, _, hmem⟩ := h
    obtain ⟨h1, h2⟩ := hb _ hmem
    subst hl
    constructor
    · rw [List.pairwise_append]
      refine ⟨h1, List.pairwise_singleton _ _, ?_⟩
      intro a ha c hc
      simp at hc
      exact hc ▸ h2 a ha
    · intro id hid
      simp at hid
      rcases hid with hid | hid
      · exact Nat.lt_succ_of_lt (h2 id hid)
      · omega
  · obtain ⟨h1, h2⟩ := h
    subst h2
    refine ⟨List.pairwise_singleton _ _, ?_⟩
    intro id hid
    simp at hid
    omega

theorem bucketsFromKeys_sorted :
    ∀ (ks : List Int) (acc : List (Int × List Nat)) (i : Nat),
      (∀ p ∈ acc, List.Pairwise (fun a c => a < c) p.2 ∧ ∀ id ∈ p.2, id < i) →
      ∀ p ∈ bucketsFromKeys acc i ks,
        List.Pairwise (fun a c => a < c) p.2 ∧ ∀ id ∈ p.2, id < i + ks.length := by
  intro ks
  induction ks with
  | nil =>
    intro acc i hacc p hp
    simp only [bucketsFromKeys] at hp
    obtain ⟨h1, h2⟩ := hacc p hp
    exact ⟨h1, fun id hid => by have := h2 id hid; simpa using Nat.lt_of_lt_of_le this (by omega)⟩
  | cons k ks ih =>
    intro acc i hacc p hp
    simp only [bucketsFromKeys] at hp
    have hrec := ih (addToBucket acc k i) (i + 1) (addToBucket_inv hacc) p hp
    refine ⟨hrec.1, fun id hid => ?_⟩
    have := hrec.2 id hid
    simp only [List.length_cons]
    omega

theorem addToBucket_mem_id {b : List (Int × List Nat)} {k' : Int} {i : Nat}
    {k : Int} {l : List Nat} {id : Nat}
    (h : (k, l) ∈ addToBucket b k' i) (hid : id ∈ l) :
    (∃ l₀, (k, l₀) ∈ b ∧ id ∈ l₀) ∨ (k = k' ∧ id = i) := by
  rcases addToBucket_mem h with h1 | h1 | h1
  · exact Or.inl ⟨l, h1, hid⟩
  · obtain ⟨l₀, hl, hk, hmem⟩ := h1
    subst hl
    simp at hid
    rcases hid with hid | hid
    · exact Or.inl ⟨l₀, hmem, hid⟩
    · exact Or.inr ⟨hk, hid⟩
  · obtain ⟨h2, h3⟩ := h1
    subst h3
    simp at hid
    exact Or.inr ⟨h2, hid⟩

theorem bucketsFromKeys_key :
    ∀ (ks : List Int) (acc : List (Int × List Nat)) (i : Nat)
      (k : Int) (l : List Nat) (id : Nat),
      (k, l) ∈ bucketsFromKeys acc i ks → id ∈ l →
      (∃ l₀, (k, l₀) ∈ acc ∧ id ∈ l₀) ∨ (i ≤ id ∧ ks[id - i]? = some k) := by
  intro ks
  induction ks with
  | nil =>
    intro acc i k l id hmem hid
    exact Or.inl ⟨l, hmem, hid⟩
  | cons k₁ ks ih =>
    intro acc i k l id hmem hid
    simp only [bucketsFromKeys] at hmem
    rcases ih (addToBucket acc k₁ i) (i + 1) k l id hmem hid with h | h
    · obtain ⟨l₀, hmem₀, hid₀⟩ := h
      rcases addToBucket_mem_id hmem₀ hid₀ with h1 | h1
      · exact Or.inl h1
      · right
        obtain ⟨hk, hi⟩ := h1
        constructor
        · omega
        · have he : id - i = 0 := by omega
          rw [he]
          simp [hk]
    · right
      obtain ⟨hle, hget⟩ := h
      refine ⟨by omega, ?_⟩
      have he : id - i = (id - (i + 1)) + 1 := by omega
      rw [he]
      simpa using hget

theorem splitOnPlus_no_plus {l : List Char} (h : '+' ∉ l) : splitOnPlus l = [l] := by
  induction l with
  | nil => simp [splitOnPlus]
  | cons c cs ih =>
    have hc : c ≠ '+' := fun he => h (he ▸ List.mem_cons_self c cs)
    have hcs : '+' ∉ cs := fun hm => h (List.mem_cons_of_mem c hm)
    simp only [splitOnPlus, if_neg hc, ih hcs]

theorem splitOnPlus_append {a b : List Char} (ha : '+' ∉ a) (hb : '+' ∉ b) :
    splitOnPlus (a ++ '+' :: b) = [a, b] := by
  induction a with
  | nil => simp [splitOnPlus, splitOnPlus_no_plus hb]
  | cons c cs ih =>
    have hc : c ≠ '+' := fun he => ha (he ▸ List.mem_cons_self c cs)
    have hcs : '+' ∉ cs := fun hm => ha (List.mem_cons_of_mem c hm)
    simp only [List.cons_append, splitOnPlus, if_neg hc, List.append_eq, ih hcs]

theorem timePerMoveSide_shift (day incr : Int) (t : PyTime) (h : List PyTime) :
    timePerMoveSide day (combine day t) incr h
      = timePerMoveSide 0 (combine 0 t) incr h := by
  unfold timePerMoveSide
  have hmap : h.map (combine day)
      = (h.map (combine 0)).map (fun x => day * 86400000000 + x) := by
    rw [List.map_map]
    refine List.map_congr_left ?_
    intro u _
    simp [combine, Function.comp]
  have hstart : combine day t = day * 86400000000 + combine 0 t := by
    simp [combine]
  rw [hmap, hstart, histMTimeDT_shift]

/-- C1: move-time derivation follows the exact sequence: the running clock
starts at `start_seconds` (anchored to a fixed date), and for each reading
in move order the increment is added to the running clock first, then
`elapsed = running_clock - reading` is recorded, then the reading becomes
the new running clock (captured by the `zipWith` closed form pairing each
reading with its predecessor); in particular for time control `"180+2"`
with first clock reading `00:02:59`, the elapsed time for move 1 is 3
seconds (3000000 microseconds). -/
theorem spec_c1_derivation_sequence :
    (∀ (incr start : Int) (l : List Int),
        histMTimeDT incr start l
          = List.zipWith (fun p c => p + incr - c) (start :: l) l)
    ∧ extract_time_ctrl_parse "\"180+2\"".data = some (180, 2)
    ∧ build_time_by_clock "0:02:59".data = some ⟨0, 2, 59, 0⟩
    ∧ (extract_time_per_move 0 180 2 [⟨0, 2, 59, 0⟩] []).map (fun r => r.1.2)
        = some [3 * 1000000] := by
  exact ⟨histMTimeDT_eq_zipWith, by decide, by decide, by decide⟩

/-- C2 (code-bug evidence): on an input whose clock block has a start
marker but no end marker, the scan does NOT fail; `find` returns `-1`,
the slice `pgn[start:-1]` drops only the final character, and the
truncated token `0:04:00` is silently recorded as a white clock reading —
no `TruncatedClockBlock` error exists anywhere in the code. -/
theorem spec_c2_truncated_block :
    extract_hist_clock "\x7b[%clk 0:04:000".data
      = some ([⟨0, 4, 0, 0⟩], []) := by
  decide

/-- C6: move-time derivation is deterministic and date-independent: the
derivation (elapsed sequences and bucket mappings for both sides) yields
identical results for any two calendar dates, hence re-running it is
idempotent. -/
theorem spec_c6_deterministic (day day' : Int) (s : Nat) (i : Int)
    (w b : List PyTime) :
    extract_time_per_move day s i w b = extract_time_per_move day' s i w b := by
  have key : ∀ d : Int, extract_time_per_move d s i w b
      = extract_time_per_move 0 s i w b := by
    intro d
    unfold extract_time_per_move initStartDT
    cases hmk : mkPyTime (s / 3600) (s % 3600 / 60) (s % 3600 % 60) with
    | none => simp [hmk]
    | some t =>
      simp only [hmk, Option.map_some']
      rw [timePerMoveSide_shift d i t w, timePerMoveSide_shift d i t b]
  rw [key day, key day']

/-- C8: the running total of spent time for a side equals the sum over
all buckets of `bucket_key * move_count_in_bucket`, which in turn is the
sum of the ceiling-rounded per-move values — not the sum of the raw
elapsed microsecond values. -/
theorem spec_c8_spent_total (day startDT incr : Int) (hclock : List PyTime) :
    spentTimeOf (timePerMoveSide day startDT incr hclock).1
      = ((timePerMoveSide day startDT incr hclock).1.map
          (fun p => p.1 * (p.2.length : Int))).sum
    ∧ ((timePerMoveSide day startDT incr hclock).1.map
          (fun p => p.1 * (p.2.length : Int))).sum
      = ((timePerMoveSide day startDT incr hclock).2.map ceilSecOfMicros).sum := by
  constructor
  · exact spentTimeOf_eq_sum _
  · show ((bucketsFromKeys [] 1 _).map _).sum = _
    rw [bucketsFromKeys_weight _ rfl]
    simp only [List.map_nil, List.sum_nil, zero_add]
    rfl

/-- C9: constructing the initial running-clock value fails (hour out of
range in `datetime.time`) exactly when `secs_start ≥ 86400`, so move-time
derivation succeeds only for `secs_start < 86400`, even though the data
model admits any natural `secs_start`. -/
theorem spec_c9_start_bound (day : Int) (s : Nat) (i : Int) (w b : List PyTime) :
    (extract_time_per_move day s i w b = none ↔ 86400 ≤ s)
    ∧ (initStartDT day s = none ↔ 86400 ≤ s) := by
  have hbody : initStartDT day s
      = Option.map (fun t => combine day t)
          (if s / 3600 ≤ 23 ∧ s % 3600 / 60 ≤ 59 ∧ s % 3600 % 60 ≤ 59 then
            some ⟨s / 3600, s % 3600 / 60, s % 3600 % 60, 0⟩
          else none) := rfl
  have hinit : initStartDT day s = none ↔ 86400 ≤ s := by
    by_cases hc : s / 3600 ≤ 23
    · rw [hbody, if_pos ⟨hc, by omega, by omega⟩]
      simp only [Option.map_some']
      constructor
      · intro hcontra
        exact absurd hcontra (by simp)
      · intro hge
        omega
    · rw [hbody, if_neg (fun hcon => hc hcon.1)]
      simp only [Option.map_none']
      constructor
      · intro _
        omega
      · intro _
        trivial
  refine ⟨?_, hinit⟩
  have he : extract_time_per_move day s i w b
      = (initStartDT day s).map (fun ds =>
          (timePerMoveSide day ds i w, timePerMoveSide day ds i b)) := rfl
  rw [he, Option.map_eq_none']
  exact hinit

/-- C10: formatting a duration of exactly 0 seconds yields the empty
string (hour, minute and second components are all omitted when zero), so
the time-control summary for an increment of 0 renders nothing after the
`" + "`. -/
theorem spec_c10_fmt_zero :
    fmt_time_per_move 0 = ""
    ∧ (∀ s : Int, print_timectrl_desc s 0
        = "Time Control: " ++ fmt_time_per_move (s : ℚ) ++ " + ") := by
  have h0 : fmt_time_per_move 0 = "" := by
    unfold fmt_time_per_move
    norm_num
  refine ⟨h0, fun s => ?_⟩
  unfold print_timectrl_desc
  rw [Int.cast_zero, h0]
  simp

/-- C3 counterexample: the claim that parsing fails whenever a side is
not a NON-NEGATIVE integer is false — `int()` accepts a sign, so the
time-control text `"-600"` parses successfully to a negative start value
instead of failing. -/
theorem spec_c3_counterexample :
    extract_time_ctrl_parse "-600".data = some (-600, 0) ∧ (-600 : Int) < 0 := by
  constructor
  · decide
  · decide

/-- C3 (amended): a `+` splits the text into (left operand as
`secs_start`, right operand as `secs_incr`); without `+` the whole value
is the start with increment 0, so `"600"` parses to `(600, 0)`; parsing
fails exactly when `int()` fails on a side — i.e. when a side is not a
valid, optionally signed, integer literal; negative values such as
`"-600"` are accepted rather than rejected. -/
theorem spec_c3_timectrl_parse :
    (∀ a b : List Char, '+' ∉ a → '+' ∉ b → '"' ∉ a → '"' ∉ b →
        extract_time_ctrl_parse (a ++ '+' :: b)
          = match pyInt a, pyInt b with
            | some x, some y => some (x, y)
            | _, _ => none)
    ∧ (∀ l : List Char, '+' ∉ l → '"' ∉ l →
        extract_time_ctrl_parse l = (pyInt l).map (fun v => (v, 0)))
    ∧ extract_time_ctrl_parse "600".data = some (600, 0)
    ∧ extract_time_ctrl_parse "-600".data = some (-600, 0) := by
  have hfilter : ∀ l : List Char, '"' ∉ l →
      l.filter (fun c => c ≠ '"') = l := by
    intro l hq
    refine List.filter_eq_self.mpr ?_
    intro c hc
    simp only [ne_eq, decide_eq_true_eq]
    intro he
    exact hq (he ▸ hc)
  refine ⟨?_, ?_, by decide, by decide⟩
  · intro a b ha hb hqa hqb
    have hq : '"' ∉ a ++ '+' :: b := by
      intro hm
      simp only [List.mem_append, List.mem_cons] at hm
      rcases hm with hm | hm | hm
      · exact hqa hm
      · exact absurd hm (by decide)
      · exact hqb hm
    show (if '+' ∈ (a ++ '+' :: b).filter (fun c => c ≠ '"') then _ else _) = _
    rw [hfilter _ hq]
    rw [if_pos (by simp)]
    rw [splitOnPlus_append ha hb]
  · intro l hp hq
    show (if '+' ∈ l.filter (fun c => c ≠ '"') then _ else _) = _
    rw [hfilter _ hq]
    rw [if_neg hp]

/-- C3 witness: the amended characterization applied at the concrete
inputs `"180" + "2"` and `"600"`. -/
theorem spec_c3_witness :
    extract_time_ctrl_parse ("180".data ++ '+' :: "2".data)
      = (match pyInt "180".data, pyInt "2".data with
         | some x, some y => some (x, y)
         | _, _ => none)
    ∧ extract_time_ctrl_parse "600".data
      = (pyInt "600".data).map (fun v => (v, 0)) :=
  ⟨spec_c3_timectrl_parse.1 "180".data "2".data
      (by decide) (by decide) (by decide) (by decide),
   spec_c3_timectrl_parse.2.1 "600".data (by decide) (by decide)⟩

/-- C4: clock-substring parsing tries the fractional-seconds format first
and returns the first successful parse; every successful parse yields a
valid time-of-day (hour 0–23, minute 0–59, second 0–59, microseconds
below one second); `"0:05:30.500"` yields 5 min 30.5 s, `"0:05:30"`
yields 5 min 30 s exactly, and `"garbage"` fails (the
`UnrecognizedClockFormat` `ValueError`, modelled as `none`). -/
theorem spec_c4_clock_formats :
    (∀ (l : List Char) (t : PyTime),
        parseClockFrac l = some t → build_time_by_clock l = some t)
    ∧ (∀ l : List Char,
        parseClockFrac l = none → build_time_by_clock l = parseClockNoFrac l)
    ∧ (∀ (l : List Char) (t : PyTime), build_time_by_clock l = some t →
        t.hour ≤ 23 ∧ t.minute ≤ 59 ∧ t.second ≤ 59 ∧ t.micro < 1000000)
    ∧ build_time_by_clock "0:05:30.500".data = some ⟨0, 5, 30, 500000⟩
    ∧ build_time_by_clock "0:05:30".data = some ⟨0, 5, 30, 0⟩
    ∧ build_time_by_clock "garbage".data = none := by
  refine ⟨?_, ?_, ?_, by decide, by decide, by decide⟩
  · intro l t h
    unfold build_time_by_clock
    rw [h]
  · intro l h
    unfold build_time_by_clock
    rw [h]
  · intro l t h
    exact build_time_by_clock_valid h

/-- C4 witness: the format-priority characterization and field validity
applied at the concrete inputs of the claim. -/
theorem spec_c4_witness :
    build_time_by_clock "0:05:30.500".data = some ⟨0, 5, 30, 500000⟩
    ∧ build_time_by_clock "0:05:30".data = parseClockNoFrac "0:05:30".data
    ∧ ((⟨0, 5, 30, 500000⟩ : PyTime).hour ≤ 23
        ∧ (⟨0, 5, 30, 500000⟩ : PyTime).minute ≤ 59
        ∧ (⟨0, 5, 30, 500000⟩ : PyTime).second ≤ 59
        ∧ (⟨0, 5, 30, 500000⟩ : PyTime).micro < 1000000) :=
  ⟨spec_c4_clock_formats.1 "0:05:30.500".data ⟨0, 5, 30, 500000⟩ (by decide),
   spec_c4_clock_formats.2.1 "0:05:30".data (by decide),
   spec_c4_clock_formats.2.2.1 "0:05:30.500".data ⟨0, 5, 30, 500000⟩ (by decide)⟩

/-- C5: side assignment alternates by encounter parity starting with
white (the fixed first-moving side): with `N` scanned clock tokens that
all parse, white receives `⌈N/2⌉` readings and black `⌊N/2⌋`, and each
side's sequence preserves encounter order (white holds the tokens at even
0-based encounter indices, black those at odd indices). -/
theorem spec_c5_alternation (pgn : List Char) (w b : List PyTime)
    (h : extract_hist_clock pgn = some (w, b)) :
    ∃ ts : List PyTime,
      parseAll (scanClock pgn) = some ts
      ∧ ts.length = (scanClock pgn).length
      ∧ w.length = ((scanClock pgn).length + 1) / 2
      ∧ b.length = (scanClock pgn).length / 2
      ∧ (∀ i : Nat, w[i]? = ts[2 * i]?)
      ∧ (∀ i : Nat, b[i]? = ts[2 * i + 1]?) := by
  unfold extract_hist_clock at h
  cases hp : parseAll (scanClock pgn) with
  | none =>
    rw [hp] at h
    simp at h
  | some ts =>
    rw [hp] at h
    simp only [Option.map_some'] at h
    have hpair := Option.some.inj h
    have hw : (altSplit ts).1 = w := congrArg Prod.fst hpair
    have hb : (altSplit ts).2 = b := congrArg Prod.snd hpair
    have hlen := parseAll_length hp
    refine ⟨ts, rfl, hlen, ?_, ?_, ?_, ?_⟩
    · rw [← hw, (altSplit_length ts).1, hlen]
    · rw [← hb, (altSplit_length ts).2, hlen]
    · intro j
      rw [← hw]
      exact (altSplit_get ts j).1
    · intro j
      rw [← hb]
      exact (altSplit_get ts j).2

/-- C5 witness: the alternation theorem applied to a concrete game text
with three clock tokens — white gets readings 1 and 3, black reading 2. -/
theorem spec_c5_witness :
    ∃ ts : List PyTime,
      parseAll (scanClock ("\x7b[%clk 0:03:00]\x7d x \x7b[%clk 0:02:58]\x7d y \x7b[%clk 0:02:55]\x7d".data)) = some ts
      ∧ ts.length = (scanClock ("\x7b[%clk 0:03:00]\x7d x \x7b[%clk 0:02:58]\x7d y \x7b[%clk 0:02:55]\x7d".data)).length
      ∧ ([⟨0, 3, 0, 0⟩, ⟨0, 2, 55, 0⟩] : List PyTime).length
          = ((scanClock ("\x7b[%clk 0:03:00]\x7d x \x7b[%clk 0:02:58]\x7d y \x7b[%clk 0:02:55]\x7d".data)).length + 1) / 2
      ∧ ([⟨0, 2, 58, 0⟩] : List PyTime).length = (scanClock ("\x7b[%clk 0:03:00]\x7d x \x7b[%clk 0:02:58]\x7d y \x7b[%clk 0:02:55]\x7d".data)).length / 2
      ∧ (∀ i : Nat, ([⟨0, 3, 0, 0⟩, ⟨0, 2, 55, 0⟩] : List PyTime)[i]? = ts[2 * i]?)
      ∧ (∀ i : Nat, ([⟨0, 2, 58, 0⟩] : List PyTime)[i]? = ts[2 * i + 1]?) :=
  spec_c5_alternation ("\x7b[%clk 0:03:00]\x7d x \x7b[%clk 0:02:58]\x7d y \x7b[%clk 0:02:55]\x7d".data) [⟨0, 3, 0, 0⟩, ⟨0, 2, 55, 0⟩] [⟨0, 2, 58, 0⟩]
    (by decide)

/-- C7: for every side, the bucket mapping is a partition of the side's
move indices 1..count — the flattened bucket contents are a permutation
of `1..count` (each index in exactly one bucket), indices within a bucket
are in ascending move order, and every index sits in the bucket keyed by
the ceiling-rounded elapsed time of its move. -/
theorem spec_c7_partition (day startDT incr : Int) (hclock : List PyTime) :
    (((timePerMoveSide day startDT incr hclock).1.map Prod.snd).flatten.Perm
        (List.range' 1 hclock.length))
    ∧ (∀ p ∈ (timePerMoveSide day startDT incr hclock).1,
        List.Pairwise (fun a c => a < c) p.2)
    ∧ (∀ (k : Int) (l : List Nat) (id : Nat),
        (k, l) ∈ (timePerMoveSide day startDT incr hclock).1 → id ∈ l →
        1 ≤ id ∧ ((timePerMoveSide day startDT incr hclock).2.map
          ceilSecOfMicros)[id - 1]? = some k) := by
  have hlen : ((histMTimeDT (incr * 1000000) startDT
      (hclock.map (combine day))).map ceilSecOfMicros).length = hclock.length := by
    rw [List.length_map, histMTimeDT_length, List.length_map]
  refine ⟨?_, ?_, ?_⟩
  · have hj := bucketsFromKeys_join
      ((histMTimeDT (incr * 1000000) startDT (hclock.map (combine day))).map
        ceilSecOfMicros) [] 1
    rw [hlen] at hj
    simpa using hj
  · intro p hp
    exact (bucketsFromKeys_sorted
      ((histMTimeDT (incr * 1000000) startDT (hclock.map (combine day))).map
        ceilSecOfMicros) [] 1 (by simp) p hp).1
  · intro k l id hmem hid
    rcases bucketsFromKeys_key
        ((histMTimeDT (incr * 1000000) startDT (hclock.map (combine day))).map
          ceilSecOfMicros) [] 1 k l id hmem hid with hcase | hcase
    · simp at hcase
    · exact ⟨hcase.1, hcase.2⟩

/-- C7 witness: the partition theorem applied to a concrete two-move
history where both moves take 3 seconds and land in one bucket. -/
theorem spec_c7_witness :
    List.Pairwise (fun a c => a < c)
      (((3 : Int), ([1, 2] : List Nat)).2)
    ∧ (1 ≤ (1 : Nat)
        ∧ ((timePerMoveSide 0 180000000 2 [⟨0, 2, 59, 0⟩, ⟨0, 2, 58, 0⟩]).2.map
            ceilSecOfMicros)[(1 : Nat) - 1]? = some 3) :=
  ⟨(spec_c7_partition 0 180000000 2 [⟨0, 2, 59, 0⟩, ⟨0, 2, 58, 0⟩]).2.1
      (3, [1, 2]) (by decide),
   (spec_c7_partition 0 180000000 2 [⟨0, 2, 59, 0⟩, ⟨0, 2, 58, 0⟩]).2.2
      3 [1, 2] 1 (by decide) (by decide)⟩

end ChessPy
